import Mathlib

/-!
Shallow embedding of the `serde-hex` crate's core codec.

Bytes and ASCII characters are modelled as `Nat` (always < 256 where the
Rust type is `u8`); byte buffers and hex text are `List Nat`.  The sink
(`io::Write`) is modelled by returning the list of bytes written on
success; fallible Rust functions returning `Result<T, Error>` become
`Except Error T`.

Sources embedded:
  * `src/types.rs`   — the `Error` enum;
  * `src/utils.rs`   — `intoval`, `fromval`, `fromvalcaps`, `intobyte`,
                       `frombyte`, `frombytecaps`, `fromhex`, `writehex`,
                       `writehexcaps`;
  * `src/lib.rs`     — the `HexConf` policy trait (a triple of booleans)
                       and the `impl_core_bytearray!` macro body giving
                       `into_hex_raw` / `from_hex_raw` for `[u8; N]`.
-/

/-- Model of `Error` from `src/types.rs`.  `IoError` wraps a sink failure (the pure
model never produces one); `BadSize` carries the offending length,
`BadChar` the offending character (as its byte value), `BadByte` the
offending nibble value. -/
inductive Error where
  | IoError : Error
  | BadSize : Nat → Error
  | BadChar : Nat → Error
  | BadByte : Nat → Error
deriving DecidableEq, Repr

/-- Model of the `HexConf` trait of `src/lib.rs`: a policy is a triple of booleans
`compact` / `withpfx` / `withcap`.  The eight unit structs `Strict`,
`StrictPfx`, …, `CompactCapsPfx` are the eight values of this structure. -/
structure HexConf where
  compact : Bool
  withpfx : Bool
  withcap : Bool
deriving DecidableEq, Repr

instance {ε : Type u} {α : Type v} [DecidableEq ε] [DecidableEq α] :
    DecidableEq (Except ε α) := fun a b =>
  match a, b with
  | .ok x, .ok y =>
      if h : x = y then .isTrue (h ▸ rfl)
      else .isFalse (fun he => h (Except.ok.inj he))
  | .error x, .error y =>
      if h : x = y then .isTrue (h ▸ rfl)
      else .isFalse (fun he => h (Except.error.inj he))
  | .ok _, .error _ => .isFalse (fun he => Except.noConfusion he)
  | .error _, .ok _ => .isFalse (fun he => Except.noConfusion he)

/-- Model of `utils::intoval`: convert a hex character (byte value) to its numeric
value; `A-F` and `a-f` map to 10..15, `0-9` to 0..9, anything else is
`BadChar`. -/
def intoval (c : Nat) : Except Error Nat :=
  if 0x41 ≤ c ∧ c ≤ 0x46 then .ok (c - 0x41 + 10)
  else if 0x61 ≤ c ∧ c ≤ 0x66 then .ok (c - 0x61 + 10)
  else if 0x30 ≤ c ∧ c ≤ 0x39 then .ok (c - 0x30)
  else .error (.BadChar c)

/-- Model of `utils::fromval`: convert a nibble value to its lowercase hex
character; values above 15 are `BadByte`. -/
def fromval (v : Nat) : Except Error Nat :=
  if 0xa ≤ v ∧ v ≤ 0xf then .ok (v - 0xa + 0x61)
  else if v ≤ 0x9 then .ok (v + 0x30)
  else .error (.BadByte v)

/-- Model of `utils::fromvalcaps`: convert a nibble value to its uppercase hex
character; values above 15 are `BadByte`. -/
def fromvalcaps (v : Nat) : Except Error Nat :=
  if 0xa ≤ v ∧ v ≤ 0xf then .ok (v - 0xa + 0x41)
  else if v ≤ 0x9 then .ok (v + 0x30)
  else .error (.BadByte v)

/-- Model of `utils::intobyte`: `intoval(a)? << 4 | intoval(b)?`. -/
def intobyte (a b : Nat) : Except Error Nat := do
  let x ← intoval a
  let y ← intoval b
  pure ((x <<< 4) ||| y)

/-- Model of `utils::frombyte`: `(fromval(val >> 4)?, fromval(val & 0x0f)?)`. -/
def frombyte (v : Nat) : Except Error (Nat × Nat) := do
  let a ← fromval (v >>> 4)
  let b ← fromval (v &&& 0xf)
  pure (a, b)

/-- Model of `utils::frombytecaps`: uppercase variant of `frombyte`. -/
def frombytecaps (v : Nat) : Except Error (Nat × Nat) := do
  let a ← fromvalcaps (v >>> 4)
  let b ← fromvalcaps (v &&& 0xf)
  pure (a, b)

/-- The pairwise-decoding loop of `utils::fromhex`
(`for (idx,pair) in src.chunks(2).enumerate() { buf[idx] = intobyte(pair[0],pair[1])?; }`),
returning the list of decoded bytes.  When `src` has even length (the only
case `fromhex` reaches it) every chunk is a full pair. -/
def pairsDecode : List Nat → Except Error (List Nat)
  | a :: b :: rest => do
      let v ← intobyte a b
      let vs ← pairsDecode rest
      pure (v :: vs)
  | _ => .ok []

/-- Model of `utils::fromhex`: requires `src.len() == buf.len() * 2`
(else `BadSize(src.len())`), then overwrites `buf` with the pairwise
decoding of `src`.  The returned list is the final contents of `buf`. -/
def fromhex (buf src : List Nat) : Except Error (List Nat) :=
  if src.length ≠ buf.length * 2 then .error (.BadSize src.length)
  else pairsDecode src

/-- Model of `utils::writehex`: write each byte of `src` as its lowercase hex pair
to the sink; the result is the list of bytes written. -/
def writehex : List Nat → Except Error (List Nat)
  | [] => .ok []
  | v :: rest => do
      let p ← frombyte v
      let tail ← writehex rest
      pure (p.1 :: p.2 :: tail)

/-- Model of `utils::writehexcaps`: uppercase variant of `writehex`. -/
def writehexcaps : List Nat → Except Error (List Nat)
  | [] => .ok []
  | v :: rest => do
      let p ← frombytecaps v
      let tail ← writehexcaps rest
      pure (p.1 :: p.2 :: tail)

/-- Model of `src.iter().enumerate().find(|&(_,v)| *v > 0u8)` from the compact
branch of `into_hex_raw`: index and value of the first nonzero byte. -/
def findNonzero : List Nat → Option (Nat × Nat)
  | [] => none
  | v :: rest =>
      if v > 0 then some (0, v)
      else (findNonzero rest).map (fun p => (p.1 + 1, p.2))

/-- Body of `into_hex_raw` (`src/lib.rs`, `impl_core_bytearray!`) after
the optional prefix write: the compact branch finds the first nonzero
byte (single leading character when its value is below `0x10`, all-zero
buffers produce the single character `'0'`); the strict branch writes
every byte as a hex pair. -/
def into_hex_body (compact cap : Bool) (src : List Nat) : Except Error (List Nat) :=
  if compact then
    match findNonzero src with
    | some (idx, val) =>
        if val < 0x10 then do
          let c ← if cap then fromvalcaps val else fromval val
          let rest ← if cap then writehexcaps (src.drop (idx + 1))
                     else writehex (src.drop (idx + 1))
          pure (c :: rest)
        else
          if cap then writehexcaps (src.drop idx) else writehex (src.drop idx)
    | none => .ok [0x30]
  else
    if cap then writehexcaps src else writehex src

/-- Model of `into_hex_raw` for an `N`-byte container (`src/lib.rs`,
`impl_core_bytearray!`): writes `"0x"` first when `withpfx` is set, then
the body per the compact/strict algorithm.  The successful result is the
full list of bytes written to the sink. -/
def into_hex_raw (p : HexConf) (src : List Nat) : Except Error (List Nat) :=
  (into_hex_body p.compact p.withcap src).map
    (fun s => (if p.withpfx then [0x30, 0x78] else []) ++ s)

/-- The `let hex = …` step of `from_hex_raw`: when `withpfx` is set, a
leading `"0x"` is stripped if present (its absence is not an error);
when `withpfx` is unset the input is used unchanged. -/
def stripPfx (withpfx : Bool) (raw : List Nat) : List Nat :=
  if withpfx then
    if raw.take 2 = [0x30, 0x78] then raw.drop 2 else raw
  else raw

/-- Body of `from_hex_raw` after prefix handling, for an `N`-byte
container.  Compact: reject length 0 or above `2N`; decode an odd leading
character (implicit high nibble `'0'`) into index `body - 1`, then the
rest pairwise into indices `body..`, over a zero-initialised buffer.
Strict: `fromhex` over the whole buffer. -/
def from_hex_body (N : Nat) (compact : Bool) (hex : List Nat) : Except Error (List Nat) :=
  if compact then
    if hex.length = 0 ∨ hex.length > N * 2 then
      .error (.BadSize hex.length)
    else
      let body := N - hex.length / 2
      let head := hex.length % 2
      if head > 0 then do
        let v ← intobyte 0x30 (hex.headD 0)
        let buf := (List.replicate N 0).set (body - head) v
        let tail ← fromhex (buf.drop body) (hex.drop head)
        pure (buf.take body ++ tail)
      else do
        let buf := List.replicate N 0
        let tail ← fromhex (buf.drop body) (hex.drop head)
        pure (buf.take body ++ tail)
  else
    fromhex (List.replicate N 0) hex

/-- Model of `from_hex_raw` for an `N`-byte container (`src/lib.rs`,
`impl_core_bytearray!`). -/
def from_hex_raw (N : Nat) (p : HexConf) (raw : List Nat) : Except Error (List Nat) :=
  from_hex_body N p.compact (stripPfx p.withpfx raw)


/-! ### Basic monadic reductions -/

theorem okBind {ε : Type u} {α β : Type v} (a : α) (f : α → Except ε β) :
    (Except.ok a : Except ε α) >>= f = f a := rfl

theorem errBind {ε : Type u} {α β : Type v} (e : ε) (f : α → Except ε β) :
    (Except.error e : Except ε α) >>= f = .error e := rfl

/-! ### Nibble-codec facts -/

set_option maxRecDepth 8192 in
/-- Round-trip at the byte level: encoding a byte below 256 as a lowercase
hex pair succeeds and decoding the pair restores the byte. -/
theorem byte_rt : ∀ v < 256, (frombyte v).bind (fun p => intobyte p.1 p.2) = .ok v := by
  decide

set_option maxRecDepth 8192 in
/-- Uppercase variant of `byte_rt`. -/
theorem bytecaps_rt : ∀ v < 256, (frombytecaps v).bind (fun p => intobyte p.1 p.2) = .ok v := by
  decide

/-- A nibble below 16 encodes to one lowercase character which, decoded
with an implicit `'0'` high character, restores the nibble. -/
theorem nib_rt : ∀ v < 16, (fromval v).bind (fun c => intobyte 0x30 c) = .ok v := by
  decide

/-- Uppercase variant of `nib_rt`. -/
theorem nibcaps_rt : ∀ v < 16, (fromvalcaps v).bind (fun c => intobyte 0x30 c) = .ok v := by
  decide

/-- Fact: `intoval` either succeeds or reports exactly `BadChar c`. -/
theorem intoval_cases (c : Nat) :
    (∃ v, intoval c = .ok v) ∨ intoval c = .error (.BadChar c) := by
  unfold intoval
  split_ifs <;> first | exact .inl ⟨_, rfl⟩ | exact .inr rfl

/-- Fact: `intobyte` either succeeds or fails with some `BadChar`. -/
theorem intobyte_cases (a b : Nat) :
    (∃ v, intobyte a b = .ok v) ∨ (∃ c, intobyte a b = .error (.BadChar c)) := by
  unfold intobyte
  rcases intoval_cases a with ⟨x, hx⟩ | hx
  · rcases intoval_cases b with ⟨y, hy⟩ | hy
    · exact .inl ⟨_, by rw [hx, okBind, hy, okBind]; exact rfl⟩
    · exact .inr ⟨b, by rw [hx, okBind, hy, errBind]⟩
  · exact .inr ⟨a, by rw [hx, errBind]⟩

/-- The pairwise decoding loop either succeeds or fails with some
`BadChar`; it never produces any other error kind. -/
theorem pairsDecode_cases : ∀ (s : List Nat),
    (∃ l, pairsDecode s = .ok l) ∨ (∃ c, pairsDecode s = .error (.BadChar c))
  | [] => .inl ⟨[], rfl⟩
  | [_] => .inl ⟨[], rfl⟩
  | a :: b :: rest => by
      rcases intobyte_cases a b with ⟨v, hv⟩ | ⟨c, hc⟩
      · rcases pairsDecode_cases rest with ⟨l, hl⟩ | ⟨c, hc⟩
        · exact .inl ⟨v :: l, by rw [pairsDecode, hv, okBind, hl, okBind]; exact rfl⟩
        · exact .inr ⟨c, by rw [pairsDecode, hv, okBind, hc, errBind]⟩
      · exact .inr ⟨c, by rw [pairsDecode, hc, errBind]⟩

/-! ### Buffer-codec facts -/

/-- Fact: `writehex`/`writehexcaps` on a buffer of bytes below 256 succeeds,
produces twice as many characters, and decodes back pairwise. -/
theorem whex_ok (cap : Bool) : ∀ (l : List Nat), (∀ x ∈ l, x < 256) →
    ∃ s, (if cap then writehexcaps l else writehex l) = .ok s ∧
      s.length = 2 * l.length ∧ pairsDecode s = .ok l
  | [], _ => ⟨[], by cases cap <;> exact ⟨rfl, rfl, rfl⟩⟩
  | v :: rest, h => by
      have hv : v < 256 := h v (List.mem_cons_self ..)
      obtain ⟨s, hs, hlen, hpd⟩ :=
        whex_ok cap rest (fun x hx => h x (List.mem_cons_of_mem _ hx))
      cases cap with
      | false =>
        have hrt := byte_rt v hv
        cases hfb : frombyte v with
        | error e => rw [hfb] at hrt; exact absurd hrt (by simp [Except.bind])
        | ok p =>
          rw [hfb] at hrt
          have hib : intobyte p.1 p.2 = .ok v := hrt
          simp only [Bool.false_eq_true, if_false] at hs ⊢
          refine ⟨p.1 :: p.2 :: s, ?_, ?_, ?_⟩
          · rw [writehex, hfb, okBind, hs, okBind]; exact rfl
          · simp [hlen]; omega
          · rw [pairsDecode, hib, okBind, hpd, okBind]; exact rfl
      | true =>
        have hrt := bytecaps_rt v hv
        cases hfb : frombytecaps v with
        | error e => rw [hfb] at hrt; exact absurd hrt (by simp [Except.bind])
        | ok p =>
          rw [hfb] at hrt
          have hib : intobyte p.1 p.2 = .ok v := hrt
          simp only [if_true] at hs ⊢
          refine ⟨p.1 :: p.2 :: s, ?_, ?_, ?_⟩
          · rw [writehexcaps, hfb, okBind, hs, okBind]; exact rfl
          · simp [hlen]; omega
          · rw [pairsDecode, hib, okBind, hpd, okBind]; exact rfl

/-! ### `findNonzero` characterisation -/

/-- If the compact scan finds no nonzero byte, the buffer is all zeros. -/
theorem findNonzero_none : ∀ (l : List Nat), findNonzero l = none →
    l = List.replicate l.length 0
  | [], _ => rfl
  | v :: rest, h => by
      by_cases hv : v > 0
      · simp [findNonzero, hv] at h
      · have hv0 : v = 0 := by omega
        simp only [findNonzero, hv, if_false, Option.map_eq_none'] at h
        have ih := findNonzero_none rest h
        simp only [List.length_cons, List.replicate_succ, hv0]
        exact congrArg (0 :: ·) ih

/-- If the compact scan finds `(i, v)`, then `v` is nonzero, `i` is in
range, and the buffer splits as `i` zeros, then `v`, then the rest. -/
theorem findNonzero_some : ∀ (l : List Nat) (i v : Nat), findNonzero l = some (i, v) →
    0 < v ∧ i < l.length ∧ l = List.replicate i 0 ++ v :: l.drop (i + 1)
  | [], i, v, h => by simp [findNonzero] at h
  | x :: rest, i, v, h => by
      by_cases hx : x > 0
      · simp only [findNonzero, hx, if_true, Option.some.injEq, Prod.mk.injEq] at h
        obtain ⟨hi, hv⟩ := h
        subst hi; subst hv
        exact ⟨hx, by simp, by simp⟩
      · have hx0 : x = 0 := by omega
        simp only [findNonzero, hx, if_false] at h
        cases hfr : findNonzero rest with
        | none => rw [hfr] at h; simp at h
        | some q =>
          rw [hfr] at h
          simp only [Option.map_some', Option.some.injEq, Prod.mk.injEq] at h
          obtain ⟨hi, hv⟩ := h
          obtain ⟨hw, hlen, hshape⟩ := findNonzero_some rest q.1 q.2 (by rw [hfr])
          subst hi; subst hv
          refine ⟨hw, by simp; omega, ?_⟩
          calc x :: rest = x :: (List.replicate q.1 0 ++ q.2 :: rest.drop (q.1 + 1)) := by
                rw [← hshape]
        _ = List.replicate (q.1 + 1) 0 ++ q.2 :: (x :: rest).drop (q.1 + 1 + 1) := by
                simp [hx0, List.replicate_succ]

/-! ### `List.set` on zero buffers -/

/-- Writing a zero into an all-zero buffer changes nothing. -/
theorem set_replicate_zero : ∀ (N i : Nat),
    (List.replicate N (0 : Nat)).set i 0 = List.replicate N 0
  | 0, _ => rfl
  | _ + 1, 0 => by simp [List.replicate_succ]
  | N + 1, i + 1 => by
      simp [List.replicate_succ, List.set, set_replicate_zero N i]

/-- Writing `v` at an in-range index of an all-zero buffer splits it as
`i` zeros, `v`, then the remaining zeros. -/
theorem set_replicate_split : ∀ (N i v : Nat), i < N →
    (List.replicate N (0 : Nat)).set i v =
      (List.replicate i 0 ++ [v]) ++ List.replicate (N - (i + 1)) 0
  | 0, i, _, h => absurd h (by omega)
  | N + 1, 0, v, _ => by simp [List.replicate_succ]
  | N + 1, i + 1, v, h => by
      have ih := set_replicate_split N i v (by omega)
      simp only [List.replicate_succ, List.set, ih]
      simp [List.replicate_succ]

/-! ### Mid-level encode/decode characterisations -/

/-- Stripping the very prefix that encoding emitted restores the body. -/
theorem stripPfx_encode (wp : Bool) (s : List Nat) :
    stripPfx wp ((if wp then [0x30, 0x78] else []) ++ s) = s := by
  cases wp <;> simp [stripPfx]

/-- Fact: `into_hex_raw` is the prefix (when configured) followed by the body. -/
theorem into_hex_raw_ok (p : HexConf) (src bodyOut : List Nat)
    (h : into_hex_body p.compact p.withcap src = .ok bodyOut) :
    into_hex_raw p src = .ok ((if p.withpfx then [0x30, 0x78] else []) ++ bodyOut) := by
  unfold into_hex_raw
  rw [h]
  rfl

/-- Decoding prefix-plus-body is decoding the body. -/
theorem from_raw_pfx (N : Nat) (p : HexConf) (s : List Nat) :
    from_hex_raw N p ((if p.withpfx then [0x30, 0x78] else []) ++ s) =
      from_hex_body N p.compact s := by
  rw [from_hex_raw, stripPfx_encode]

/-- A nibble below 16 has a hex character (in the requested case) whose
decode with implicit `'0'` high nibble restores the nibble. -/
theorem nib_ok (cap : Bool) (v : Nat) (hv : v < 16) :
    ∃ c, (if cap then fromvalcaps v else fromval v) = .ok c ∧ intobyte 0x30 c = .ok v := by
  cases cap with
  | false =>
    have hrt := nib_rt v hv
    cases hfv : fromval v with
    | error e => rw [hfv] at hrt; exact absurd hrt (by simp [Except.bind])
    | ok c => rw [hfv] at hrt; exact ⟨c, rfl, hrt⟩
  | true =>
    have hrt := nibcaps_rt v hv
    cases hfv : fromvalcaps v with
    | error e => rw [hfv] at hrt; exact absurd hrt (by simp [Except.bind])
    | ok c => rw [hfv] at hrt; exact ⟨c, rfl, hrt⟩

/-- Strict encode body: the hex pairs of the whole buffer. -/
theorem into_body_strict (cap : Bool) (b : List Nat) (hb : ∀ x ∈ b, x < 256) :
    ∃ s, into_hex_body false cap b = .ok s ∧
      s.length = 2 * b.length ∧ pairsDecode s = .ok b := by
  obtain ⟨s, hs, hlen, hpd⟩ := whex_ok cap b hb
  exact ⟨s, by simpa [into_hex_body] using hs, hlen, hpd⟩

/-- Compact encode body of an all-zero buffer: the single character `'0'`. -/
theorem into_body_compact_none (cap : Bool) (b : List Nat)
    (h : findNonzero b = none) : into_hex_body true cap b = .ok [0x30] := by
  simp [into_hex_body, h]

/-- Compact encode body when the first nonzero byte is below `0x10`: one
leading character followed by the hex pairs of the remaining bytes. -/
theorem into_body_compact_low (cap : Bool) (b : List Nat) (i v : Nat)
    (hf : findNonzero b = some (i, v)) (hv : v < 0x10)
    (hb : ∀ x ∈ b.drop (i + 1), x < 256) :
    ∃ c s, into_hex_body true cap b = .ok (c :: s) ∧
      intobyte 0x30 c = .ok v ∧
      pairsDecode s = .ok (b.drop (i + 1)) ∧
      s.length = 2 * (b.drop (i + 1)).length := by
  obtain ⟨c, hc, hcd⟩ := nib_ok cap v hv
  obtain ⟨s, hs, hlen, hpd⟩ := whex_ok cap (b.drop (i + 1)) hb
  refine ⟨c, s, ?_, hcd, hpd, hlen⟩
  cases cap with
  | false =>
    simp only [Bool.false_eq_true, if_false] at hc hs
    simp only [into_hex_body, hf]
    rw [if_pos hv]
    simp only [Bool.false_eq_true, if_false]
    rw [hc, okBind, hs, okBind]
    exact rfl
  | true =>
    simp only [if_true] at hc hs
    simp only [into_hex_body, hf, if_true]
    rw [if_pos hv]
    rw [hc, okBind, hs, okBind]
    exact rfl

/-- Compact encode body when the first nonzero byte is at least `0x10`:
the hex pairs of the buffer from that byte on. -/
theorem into_body_compact_high (cap : Bool) (b : List Nat) (i v : Nat)
    (hf : findNonzero b = some (i, v)) (hv : ¬ v < 0x10)
    (hb : ∀ x ∈ b.drop i, x < 256) :
    ∃ s, into_hex_body true cap b = .ok s ∧
      pairsDecode s = .ok (b.drop i) ∧
      s.length = 2 * (b.drop i).length := by
  obtain ⟨s, hs, hlen, hpd⟩ := whex_ok cap (b.drop i) hb
  refine ⟨s, ?_, hpd, hlen⟩
  cases cap with
  | false =>
    simp only [Bool.false_eq_true, if_false] at hs
    simp only [into_hex_body, hf]
    rw [if_neg hv]
    simp only [Bool.false_eq_true, if_false]
    exact hs
  | true =>
    simp only [if_true] at hs
    simp only [into_hex_body, hf, if_true]
    rw [if_neg hv]
    exact hs

/-- Compact decode of an odd-length body: the first character joins an
implicit `'0'` high nibble at index `N - L/2 - 1`, the rest decode
pairwise behind it, and everything before stays zero. -/
theorem from_body_odd (N : Nat) (hex : List Nat)
    (hodd : hex.length % 2 = 1) (hle : hex.length ≤ N * 2) :
    from_hex_body N true hex = (do
      let v ← intobyte 0x30 (hex.headD 0)
      let tail ← pairsDecode (hex.drop 1)
      pure (List.replicate (N - hex.length / 2 - 1) 0 ++ v :: tail)) := by
  have h0 : hex.length ≠ 0 := by omega
  have hbody : N - hex.length / 2 - 1 < N := by omega
  have hcond : ¬(hex.length = 0 ∨ hex.length > N * 2) := by omega
  have hhead : hex.length % 2 > 0 := by omega
  unfold from_hex_body
  rw [if_pos rfl, if_neg hcond, if_pos hhead, hodd]
  cases hib : intobyte 0x30 (hex.headD 0) with
  | error e => rw [errBind, errBind]
  | ok v =>
    rw [okBind, okBind]
    simp only []
    have hsplit := set_replicate_split N (N - hex.length / 2 - 1) v hbody
    rw [hsplit]
    have hl1 : (List.replicate (N - hex.length / 2 - 1) 0 ++ [v]).length
        = N - hex.length / 2 := by simp; omega
    rw [List.drop_left' hl1, List.take_left' hl1]
    rw [fromhex]
    have hlen2 : ¬((hex.drop 1).length ≠
        (List.replicate (N - (N - hex.length / 2 - 1 + 1)) 0).length * 2) := by
      simp; omega
    rw [if_neg hlen2]
    cases hpd : pairsDecode (hex.drop 1) with
    | error e => rw [errBind, errBind]
    | ok tail => rw [okBind, okBind]; simp

/-- Compact decode of an even-length nonempty body: pairwise decode into
the tail of the buffer behind `N - L/2` zeros. -/
theorem from_body_even (N : Nat) (hex : List Nat)
    (heven : hex.length % 2 = 0) (h0 : hex.length ≠ 0) (hle : hex.length ≤ N * 2) :
    from_hex_body N true hex = (do
      let tail ← pairsDecode hex
      pure (List.replicate (N - hex.length / 2) 0 ++ tail)) := by
  have hcond : ¬(hex.length = 0 ∨ hex.length > N * 2) := by omega
  have hhead : ¬(hex.length % 2 > 0) := by omega
  unfold from_hex_body
  rw [if_pos rfl, if_neg hcond, if_neg hhead, heven, List.drop_zero]
  simp only []
  have hdropN : (List.replicate N (0:Nat)).drop (N - hex.length / 2)
      = List.replicate (N - (N - hex.length / 2)) 0 := List.drop_replicate ..
  have htakeN : (List.replicate N (0:Nat)).take (N - hex.length / 2)
      = List.replicate (N - hex.length / 2) 0 := by
    rw [List.take_replicate]
    congr 1
    omega
  rw [hdropN, htakeN, fromhex]
  have hNN : N - (N - hex.length / 2) = hex.length / 2 := by omega
  rw [hNN]
  rw [if_neg (by simp; omega)]

/-! ### Remaining small helpers -/

/-- The strict decode body is `fromhex` over the whole zeroed buffer. -/
theorem from_body_strict (N : Nat) (hex : List Nat) :
    from_hex_body N false hex = fromhex (List.replicate N 0) hex := rfl

/-- The compact scan finds nothing in an all-zero buffer. -/
theorem findNonzero_replicate_zero : ∀ N, findNonzero (List.replicate N 0) = none
  | 0 => rfl
  | N + 1 => by
      simp [List.replicate_succ, findNonzero, findNonzero_replicate_zero N]

/-- Rebuilding an all-zero buffer from its first `N - 1` zeros and a
final zero. -/
theorem replicate_append_zero (N : Nat) (h : 1 ≤ N) :
    List.replicate (N - 1) (0 : Nat) ++ [0] = List.replicate N 0 := by
  conv_rhs => rw [show N = (N - 1) + 1 by omega]
  rw [List.replicate_succ']

/-- Encoding a buffer of genuine bytes (< 256) always succeeds. -/
theorem encode_total (p : HexConf) (src : List Nat) (hb : ∀ x ∈ src, x < 256) :
    ∃ out, into_hex_raw p src = .ok out := by
  suffices h : ∃ s, into_hex_body p.compact p.withcap src = .ok s by
    obtain ⟨s, hs⟩ := h
    exact ⟨_, into_hex_raw_ok p src s hs⟩
  cases hc : p.compact with
  | false =>
    obtain ⟨s, hs, _, _⟩ := into_body_strict p.withcap src hb
    exact ⟨s, hs⟩
  | true =>
    cases hf : findNonzero src with
    | none => exact ⟨[0x30], into_body_compact_none _ _ hf⟩
    | some q =>
      by_cases hv : q.2 < 0x10
      · obtain ⟨c, s, h, _, _, _⟩ := into_body_compact_low p.withcap src q.1 q.2
          (by rw [hf]) hv (fun x hx => hb x (List.mem_of_mem_drop hx))
        exact ⟨c :: s, h⟩
      · obtain ⟨s, h, _, _⟩ := into_body_compact_high p.withcap src q.1 q.2
          (by rw [hf]) hv (fun x hx => hb x (List.mem_of_mem_drop hx))
        exact ⟨s, h⟩

/-! ### Claim theorems -/

/-- C1: Strict round-trip — for every byte buffer `b` of length 1..64 and
every policy with `compact = false` (any prefix/case flags), decoding the
bytes that `into_hex_raw` wrote succeeds and returns `b`. -/
theorem c1_strict_roundtrip (p : HexConf) (b : List Nat)
    (hc : p.compact = false) (hb : ∀ x ∈ b, x < 256)
    (hlo : 1 ≤ b.length) (hhi : b.length ≤ 64) :
    ∃ out, into_hex_raw p b = .ok out ∧ from_hex_raw b.length p out = .ok b := by
  obtain ⟨s, hs, hlen, hpd⟩ := into_body_strict p.withcap b hb
  refine ⟨_, into_hex_raw_ok p b s (by rw [hc]; exact hs), ?_⟩
  rw [from_raw_pfx, hc, from_body_strict, fromhex]
  rw [if_neg (by simp [hlen]; omega)]
  exact hpd

theorem c1_witness :
    ∃ out, into_hex_raw ⟨false, true, true⟩ [0xab, 0x00] = .ok out ∧
      from_hex_raw 2 ⟨false, true, true⟩ out = .ok [0xab, 0x00] :=
  c1_strict_roundtrip ⟨false, true, true⟩ [0xab, 0x00] rfl (by decide)
    (by decide) (by decide)

/-- C5: Compact encoding of the all-zero `N`-byte buffer (`N ≥ 1`) writes
exactly the single digit `'0'`, preceded by `"0x"` when `withpfx` is set —
particular the body is never empty. -/
theorem c5_allzero_compact (N : Nat) (p : HexConf)
    (hc : p.compact = true) (hN : 1 ≤ N) :
    into_hex_raw p (List.replicate N 0) =
      .ok ((if p.withpfx then [0x30, 0x78] else []) ++ [0x30]) := by
  apply into_hex_raw_ok
  rw [hc]
  exact into_body_compact_none p.withcap _ (findNonzero_replicate_zero N)

theorem c5_witness :
    into_hex_raw ⟨true, true, false⟩ (List.replicate 4 0) =
      .ok ((if (true : Bool) then [0x30, 0x78] else []) ++ [0x30]) :=
  c5_allzero_compact 4 ⟨true, true, false⟩ rfl (by decide)

/-- C8: Odd-length compact decode — when the post-strip body has odd
length `L ≤ 2N`, `from_hex_raw` decodes the first character with an
implicit `'0'` high nibble into index `(N - L/2) - 1`, decodes the
remaining `L - 1` characters pairwise from index `N - L/2` on, and every
byte before index `(N - L/2) - 1` is zero. -/
theorem c8_odd_compact (N : Nat) (p : HexConf) (raw : List Nat)
    (hc : p.compact = true)
    (hodd : (stripPfx p.withpfx raw).length % 2 = 1)
    (hle : (stripPfx p.withpfx raw).length ≤ 2 * N) :
    from_hex_raw N p raw = (do
      let v ← intobyte 0x30 ((stripPfx p.withpfx raw).headD 0)
      let tail ← pairsDecode ((stripPfx p.withpfx raw).drop 1)
      pure (List.replicate (N - (stripPfx p.withpfx raw).length / 2 - 1) 0
        ++ v :: tail)) := by
  unfold from_hex_raw
  rw [hc]
  exact from_body_odd N _ hodd (by omega)

theorem c8_witness :
    from_hex_raw 3 ⟨true, true, false⟩ [0x30, 0x78, 0x66, 0x31, 0x32] = (do
      let v ← intobyte 0x30 ((stripPfx true [0x30, 0x78, 0x66, 0x31, 0x32]).headD 0)
      let tail ← pairsDecode ((stripPfx true [0x30, 0x78, 0x66, 0x31, 0x32]).drop 1)
      pure (List.replicate (3 - (stripPfx true [0x30, 0x78, 0x66, 0x31, 0x32]).length / 2 - 1) 0
        ++ v :: tail)) :=
  c8_odd_compact 3 ⟨true, true, false⟩ [0x30, 0x78, 0x66, 0x31, 0x32] rfl
    (by decide) (by decide)

/-- C9: `into_hex_raw` never returns `BadByte` — every nibble handed to
`fromval`/`fromvalcaps` on the encode path is at most `0xf`, so their
defensive error branch is unreachable from encode. -/
theorem c9_encode_no_badbyte (p : HexConf) (src : List Nat)
    (hb : ∀ x ∈ src, x < 256) (v : Nat) :
    into_hex_raw p src ≠ .error (.BadByte v) := by
  obtain ⟨out, hout⟩ := encode_total p src hb
  rw [hout]
  exact fun h => Except.noConfusion h

theorem c9_witness :
    into_hex_raw ⟨true, false, true⟩ [0x00, 0x07, 0xff] ≠
      .error (.BadByte 0x10) :=
  c9_encode_no_badbyte ⟨true, false, true⟩ [0x00, 0x07, 0xff] (by decide) 0x10

/-- C10: Compact decode refines strict decode at full width — on a
post-strip body of length exactly `2N`, compact decode equals strict
decode with the same prefix flag; in particular compact decode accepts
non-canonical bodies with leading zero digits. -/
theorem c10_compact_refines_strict (N : Nat) (p : HexConf) (raw : List Nat)
    (hc : p.compact = true) (hN : 1 ≤ N)
    (hL : (stripPfx p.withpfx raw).length = 2 * N) :
    from_hex_raw N p raw = from_hex_raw N ⟨false, p.withpfx, p.withcap⟩ raw := by
  unfold from_hex_raw
  dsimp only
  rw [hc]
  rw [from_body_even N _ (by omega) (by omega) (by omega)]
  rw [from_body_strict, fromhex, if_neg (by simp; omega)]
  have h2 : N - (stripPfx p.withpfx raw).length / 2 = 0 := by omega
  rw [h2]
  cases hpd : pairsDecode (stripPfx p.withpfx raw) with
  | error e => rw [errBind]
  | ok tail =>
    rw [okBind]
    simp only [List.replicate_zero, List.nil_append]
    exact rfl

theorem c10_witness :
    from_hex_raw 2 ⟨true, false, false⟩ [0x30, 0x30, 0x66, 0x66] =
      from_hex_raw 2 ⟨false, false, false⟩ [0x30, 0x30, 0x66, 0x66] ∧
    from_hex_raw 2 ⟨true, false, false⟩ [0x30, 0x30, 0x66, 0x66] = .ok [0x00, 0xff] :=
  ⟨c10_compact_refines_strict 2 ⟨true, false, false⟩ [0x30, 0x30, 0x66, 0x66]
      rfl (by decide) (by decide),
   by decide⟩

/-- C3 counterexample: with `withpfx` unset, a present `"0x"` prefix is
NOT stripped — strict decode of `"0x12"` into 1 byte fails with
`BadSize 4` (the bare body `"12"` succeeds), and compact decode of
`"0x1"` into 1 byte fails with `BadSize 3` (the bare body `"1"`
succeeds).  This contradicts "strips a leading 0x prefix
opportunistically regardless of the withPrefix flag". -/
theorem c3_counterexample :
    from_hex_raw 1 ⟨false, false, false⟩ [0x30, 0x78, 0x31, 0x32] =
      .error (.BadSize 4) ∧
    from_hex_raw 1 ⟨false, false, false⟩ [0x31, 0x32] = .ok [0x12] ∧
    from_hex_raw 1 ⟨true, false, false⟩ [0x30, 0x78, 0x31] =
      .error (.BadSize 3) ∧
    from_hex_raw 1 ⟨true, false, false⟩ [0x31] = .ok [0x01] := by
  decide

/-- C3 (amended): `from_hex_raw` strips a leading `"0x"` only when
`withpfx` is set, and then tolerantly — a prefixed input and the bare
body decode identically, and an input not starting with `"0x"` is used
as-is; when `withpfx` is unset the input is always used unchanged (a
present prefix is not stripped); `into_hex_raw` emits the prefix iff
`withpfx` is set. -/
theorem c3_prefix_handling :
    (∀ (N : Nat) (p : HexConf) (raw : List Nat), p.withpfx = true →
      from_hex_raw N p (0x30 :: 0x78 :: raw) = from_hex_body N p.compact raw) ∧
    (∀ (N : Nat) (p : HexConf) (raw : List Nat), p.withpfx = true →
      raw.take 2 ≠ [0x30, 0x78] →
      from_hex_raw N p raw = from_hex_body N p.compact raw) ∧
    (∀ (N : Nat) (p : HexConf) (raw : List Nat), p.withpfx = false →
      from_hex_raw N p raw = from_hex_body N p.compact raw) ∧
    (∀ (cpt cap : Bool) (src : List Nat),
      into_hex_raw ⟨cpt, true, cap⟩ src =
        (into_hex_raw ⟨cpt, false, cap⟩ src).map (fun s => 0x30 :: 0x78 :: s)) := by
  refine ⟨?_, ?_, ?_, ?_⟩
  · intro N p raw hp
    unfold from_hex_raw stripPfx
    rw [hp, if_pos rfl, if_pos (by simp)]
    rfl
  · intro N p raw hp hn
    unfold from_hex_raw stripPfx
    rw [hp, if_pos rfl, if_neg hn]
  · intro N p raw hp
    unfold from_hex_raw stripPfx
    rw [hp]
    rfl
  · intro cpt cap src
    unfold into_hex_raw
    dsimp only
    cases into_hex_body cpt cap src with
    | error e => rfl
    | ok s => rfl

theorem c3_witness :
    from_hex_raw 1 ⟨false, true, false⟩ [0x30, 0x78, 0x61, 0x62] =
      from_hex_body 1 false [0x61, 0x62] ∧
    from_hex_raw 1 ⟨false, true, false⟩ [0x61, 0x62] =
      from_hex_body 1 false [0x61, 0x62] ∧
    from_hex_raw 1 ⟨false, false, false⟩ [0x61, 0x62] =
      from_hex_body 1 false [0x61, 0x62] ∧
    into_hex_raw ⟨false, true, false⟩ [0xab] =
      (into_hex_raw ⟨false, false, false⟩ [0xab]).map (fun s => 0x30 :: 0x78 :: s) :=
  ⟨c3_prefix_handling.1 1 ⟨false, true, false⟩ [0x61, 0x62] rfl,
   c3_prefix_handling.2.1 1 ⟨false, true, false⟩ [0x61, 0x62] rfl (by decide),
   c3_prefix_handling.2.2.1 1 ⟨false, false, false⟩ [0x61, 0x62] rfl,
   c3_prefix_handling.2.2.2 false false [0xab]⟩

/-- C4: `BadSize` is returned exactly on a length violation of the
post-strip body length `L`: compact policies reject `L = 0` or `L > 2N`
with `BadSize L`, strict policies reject `L ≠ 2N` with `BadSize L`; and
whenever `L` is within bounds the call returns either a decoded buffer
or some `BadChar` — never `BadSize`. -/
theorem c4_badsize_exact (N : Nat) (p : HexConf) (raw : List Nat) :
    (p.compact = true →
      ((stripPfx p.withpfx raw).length = 0 ∨ 2 * N < (stripPfx p.withpfx raw).length) →
      from_hex_raw N p raw = .error (.BadSize (stripPfx p.withpfx raw).length)) ∧
    (p.compact = false → (stripPfx p.withpfx raw).length ≠ 2 * N →
      from_hex_raw N p raw = .error (.BadSize (stripPfx p.withpfx raw).length)) ∧
    (p.compact = true → 1 ≤ (stripPfx p.withpfx raw).length →
      (stripPfx p.withpfx raw).length ≤ 2 * N →
      (∃ out, from_hex_raw N p raw = .ok out) ∨
      (∃ c, from_hex_raw N p raw = .error (.BadChar c))) ∧
    (p.compact = false → (stripPfx p.withpfx raw).length = 2 * N →
      (∃ out, from_hex_raw N p raw = .ok out) ∨
      (∃ c, from_hex_raw N p raw = .error (.BadChar c))) := by
  refine ⟨?_, ?_, ?_, ?_⟩
  · intro hcp hbad
    unfold from_hex_raw
    rw [hcp]
    unfold from_hex_body
    rw [if_pos rfl, if_pos (by omega)]
  · intro hcp hbad
    unfold from_hex_raw
    rw [hcp, from_body_strict, fromhex, if_pos (by simp; omega)]
  · intro hcp h1 h2
    unfold from_hex_raw
    rw [hcp]
    by_cases hpar : (stripPfx p.withpfx raw).length % 2 = 1
    · rw [from_body_odd N _ hpar (by omega)]
      rcases intobyte_cases 0x30 ((stripPfx p.withpfx raw).headD 0) with ⟨v, hv⟩ | ⟨cc, hcc⟩
      · rw [hv, okBind]
        rcases pairsDecode_cases ((stripPfx p.withpfx raw).drop 1) with ⟨l, hl⟩ | ⟨cc, hcc⟩
        · rw [hl, okBind]; exact .inl ⟨_, rfl⟩
        · rw [hcc, errBind]; exact .inr ⟨cc, rfl⟩
      · rw [hcc, errBind]; exact .inr ⟨cc, rfl⟩
    · rw [from_body_even N _ (by omega) (by omega) (by omega)]
      rcases pairsDecode_cases (stripPfx p.withpfx raw) with ⟨l, hl⟩ | ⟨cc, hcc⟩
      · rw [hl, okBind]; exact .inl ⟨_, rfl⟩
      · rw [hcc, errBind]; exact .inr ⟨cc, rfl⟩
  · intro hcp hlen
    unfold from_hex_raw
    rw [hcp, from_body_strict, fromhex, if_neg (by simp; omega)]
    rcases pairsDecode_cases (stripPfx p.withpfx raw) with ⟨l, hl⟩ | ⟨cc, hcc⟩
    · rw [hl]; exact .inl ⟨_, rfl⟩
    · rw [hcc]; exact .inr ⟨cc, rfl⟩

theorem c4_witness :
    from_hex_raw 4 ⟨true, false, false⟩ [] = .error (.BadSize 0) ∧
    from_hex_raw 4 ⟨false, true, false⟩ [0x30, 0x78, 0x66, 0x61, 0x61, 0x66, 0x66, 0x61, 0x61] =
      .error (.BadSize 7) ∧
    ((∃ out, from_hex_raw 2 ⟨true, false, false⟩ [0x66, 0x61, 0x61] = .ok out) ∨
      (∃ c, from_hex_raw 2 ⟨true, false, false⟩ [0x66, 0x61, 0x61] = .error (.BadChar c))) ∧
    ((∃ out, from_hex_raw 2 ⟨false, false, false⟩ [0x66, 0x61, 0x7a, 0x7a] = .ok out) ∨
      (∃ c, from_hex_raw 2 ⟨false, false, false⟩ [0x66, 0x61, 0x7a, 0x7a] = .error (.BadChar c))) :=
  ⟨(c4_badsize_exact 4 ⟨true, false, false⟩ []).1 rfl (by decide),
   (c4_badsize_exact 4 ⟨false, true, false⟩ [0x30, 0x78, 0x66, 0x61, 0x61, 0x66, 0x66, 0x61, 0x61]).2.1
      rfl (by decide),
   (c4_badsize_exact 2 ⟨true, false, false⟩ [0x66, 0x61, 0x61]).2.2.1 rfl (by decide) (by decide),
   (c4_badsize_exact 2 ⟨false, false, false⟩ [0x66, 0x61, 0x7a, 0x7a]).2.2.2 rfl (by decide)⟩

/-- C2: Compact round-trip — for every byte buffer `b` of length 1..64
and every policy with `compact = true` (any prefix/case flags), decoding
the bytes that `into_hex_raw` wrote succeeds and returns `b`, including
the all-zero buffer and buffers whose first nonzero byte is below
`0x10`. -/
theorem c2_compact_roundtrip (p : HexConf) (b : List Nat)
    (hc : p.compact = true) (hb : ∀ x ∈ b, x < 256)
    (hlo : 1 ≤ b.length) (hhi : b.length ≤ 64) :
    ∃ out, into_hex_raw p b = .ok out ∧ from_hex_raw b.length p out = .ok b := by
  cases hf : findNonzero b with
  | none =>
    have hrep := findNonzero_none b hf
    refine ⟨_, into_hex_raw_ok p b [0x30]
      (by rw [hc]; exact into_body_compact_none p.withcap b hf), ?_⟩
    rw [from_raw_pfx, hc]
    rw [from_body_odd b.length [0x30] (by decide) (by simp; omega)]
    rw [show intobyte 0x30 (([0x30] : List Nat).headD 0) = .ok 0 from by decide, okBind]
    rw [show pairsDecode (([0x30] : List Nat).drop 1) = .ok [] from rfl, okBind]
    have harep : List.replicate (b.length - ([0x30] : List Nat).length / 2 - 1) (0 : Nat) =
        List.replicate (b.length - 1) 0 := by norm_num
    rw [harep, replicate_append_zero b.length hlo, ← hrep]
    exact rfl
  | some q =>
    obtain ⟨hv, hiN, hshape⟩ := findNonzero_some b q.1 q.2 hf
    have hdl : (b.drop (q.1 + 1)).length = b.length - q.1 - 1 := by simp; omega
    by_cases hlt : q.2 < 0x10
    · obtain ⟨c, s, henc, hcd, hpd, hslen⟩ := into_body_compact_low p.withcap b q.1 q.2 hf hlt
        (fun x hx => hb x (List.mem_of_mem_drop hx))
      refine ⟨_, into_hex_raw_ok p b (c :: s) (by rw [hc]; exact henc), ?_⟩
      rw [from_raw_pfx, hc]
      have hLodd : (c :: s).length % 2 = 1 := by
        simp only [List.length_cons, hslen, hdl]; omega
      have hLle : (c :: s).length ≤ b.length * 2 := by
        simp only [List.length_cons, hslen, hdl]; omega
      rw [from_body_odd b.length (c :: s) hLodd hLle]
      simp only [List.headD_cons, List.drop_succ_cons, List.drop_zero]
      rw [hcd, okBind, hpd, okBind]
      have harith : List.replicate (b.length - (c :: s).length / 2 - 1) (0 : Nat) =
          List.replicate q.1 0 := by
        congr 1
        simp only [List.length_cons, hslen, hdl]
        omega
      rw [harith, ← hshape]
      exact rfl
    · obtain ⟨s, henc, hpd, hslen⟩ := into_body_compact_high p.withcap b q.1 q.2 hf hlt
        (fun x hx => hb x (List.mem_of_mem_drop hx))
      refine ⟨_, into_hex_raw_ok p b s (by rw [hc]; exact henc), ?_⟩
      rw [from_raw_pfx, hc]
      have hdl0 : (b.drop q.1).length = b.length - q.1 := by simp
      have heven : s.length % 2 = 0 := by simp only [hslen]; omega
      have h0 : s.length ≠ 0 := by simp only [hslen, hdl0]; omega
      have hsle : s.length ≤ b.length * 2 := by simp only [hslen, hdl0]; omega
      rw [from_body_even b.length s heven h0 hsle]
      rw [hpd, okBind]
      have harith : List.replicate (b.length - s.length / 2) (0 : Nat) =
          List.replicate q.1 0 := by
        congr 1
        simp only [hslen, hdl0]
        omega
      rw [harith]
      have hdropq : b.drop q.1 = q.2 :: b.drop (q.1 + 1) := by
        conv_lhs => rw [hshape]
        exact List.drop_left' (by simp)
      rw [hdropq, ← hshape]
      exact rfl

theorem c2_witness :
    ∃ out, into_hex_raw ⟨true, true, false⟩ [0x00, 0x0f, 0xff, 0x11] = .ok out ∧
      from_hex_raw 4 ⟨true, true, false⟩ out = .ok [0x00, 0x0f, 0xff, 0x11] :=
  c2_compact_roundtrip ⟨true, true, false⟩ [0x00, 0x0f, 0xff, 0x11] rfl
    (by decide) (by decide) (by decide)

/-! ### Leading-zero accounting (spec vocabulary for the length formula) -/

/-- Definition of `leadingZeroBytes` from the spec's encode-length formula: the number
of zero bytes before the first nonzero byte. -/
def leadingZeroBytes : List Nat → Nat
  | [] => 0
  | v :: rest => if v = 0 then leadingZeroBytes rest + 1 else 0

/-- Whether the buffer has a first nonzero byte and it is below `0x10`
(the single-character head case of compact encoding). -/
def firstNonzeroBelow16 (b : List Nat) : Bool :=
  match findNonzero b with
  | some q => q.2 < 0x10
  | none => false

/-- On an all-zero buffer, every byte is a leading zero. -/
theorem lzb_none : ∀ (l : List Nat), findNonzero l = none →
    leadingZeroBytes l = l.length
  | [], _ => rfl
  | v :: rest, h => by
      by_cases hv : v > 0
      · simp [findNonzero, hv] at h
      · have hv0 : v = 0 := by omega
        simp only [findNonzero, hv, if_false, Option.map_eq_none'] at h
        simp [leadingZeroBytes, hv0, lzb_none rest h]

/-- The compact scan's index is exactly the leading-zero count. -/
theorem lzb_some : ∀ (l : List Nat) (i v : Nat), findNonzero l = some (i, v) →
    leadingZeroBytes l = i
  | [], _, _, h => by simp [findNonzero] at h
  | x :: rest, i, v, h => by
      by_cases hx : x > 0
      · simp only [findNonzero, hx, if_true, Option.some.injEq, Prod.mk.injEq] at h
        have hx0 : ¬ x = 0 := by omega
        simp [leadingZeroBytes, hx0, ← h.1]
      · have hx0 : x = 0 := by omega
        simp only [findNonzero, hx, if_false] at h
        cases hfr : findNonzero rest with
        | none => rw [hfr] at h; simp at h
        | some q2 =>
          rw [hfr] at h
          simp only [Option.map_some', Option.some.injEq, Prod.mk.injEq] at h
          have hih := lzb_some rest q2.1 q2.2 (by rw [hfr])
          simp [leadingZeroBytes, hx0, hih, ← h.1]

/-- C6 counterexample: the claim's compact length formula fails on the
all-zero buffer — compact encoding of `[0x00]` writes 1 character
(`"0"`), while `2 × (N − leadingZeroBytes) − (1 if first nonzero < 0x10
else 0)` evaluates to 0 there. -/
theorem c6_counterexample :
    into_hex_raw ⟨true, false, false⟩ [0x00] = .ok [0x30] ∧
    ¬ (([0x30] : List Nat).length =
        2 * (([0x00] : List Nat).length - leadingZeroBytes [0x00]) -
          (if firstNonzeroBelow16 [0x00] then 1 else 0)) := by
  decide

/-- C6 (amended): the encode output length is deterministic — strict
policies write exactly `2N` hex characters (+2 if prefixed); compact
policies write `2×(N − leadingZeroBytes) − (1 if the first nonzero byte
is below 0x10 else 0)` characters (+2 if prefixed) for buffers
containing a nonzero byte, and exactly 1 character (+2 if prefixed) for
the all-zero buffer; in particular `[0x00, 0x0f, 0xff, 0x11]` under
compact-with-prefix encodes to exactly `"0xfff11"`. -/
theorem c6_encode_length :
    (∀ (p : HexConf) (b : List Nat), (∀ x ∈ b, x < 256) →
      ∃ out, into_hex_raw p b = .ok out ∧
        out.length = (if p.withpfx then 2 else 0) +
          (if p.compact then
            (if leadingZeroBytes b = b.length then 1
             else 2 * (b.length - leadingZeroBytes b) -
               (if firstNonzeroBelow16 b then 1 else 0))
           else 2 * b.length)) ∧
    into_hex_raw ⟨true, true, false⟩ [0x00, 0x0f, 0xff, 0x11] =
      .ok [0x30, 0x78, 0x66, 0x66, 0x66, 0x31, 0x31] := by
  constructor
  · intro p b hb
    cases hcp : p.compact with
    | false =>
      obtain ⟨s, hs, hlen, _⟩ := into_body_strict p.withcap b hb
      refine ⟨_, into_hex_raw_ok p b s (by rw [hcp]; exact hs), ?_⟩
      cases hpf : p.withpfx <;> simp [hlen] <;> omega
    | true =>
      cases hf : findNonzero b with
      | none =>
        have hlz := lzb_none b hf
        refine ⟨_, into_hex_raw_ok p b [0x30]
          (by rw [hcp]; exact into_body_compact_none _ _ hf), ?_⟩
        cases hpf : p.withpfx <;> simp [hlz]
      | some q =>
        have hlz := lzb_some b q.1 q.2 hf
        obtain ⟨_, hiN, _⟩ := findNonzero_some b q.1 q.2 hf
        have hne : ¬ q.1 = b.length := by omega
        have hfnb : firstNonzeroBelow16 b = decide (q.2 < 0x10) := by
          simp [firstNonzeroBelow16, hf]
        by_cases hvlt : q.2 < 0x10
        · obtain ⟨c, s, henc, _, _, hslen⟩ := into_body_compact_low p.withcap b q.1 q.2 hf hvlt
            (fun x hx => hb x (List.mem_of_mem_drop hx))
          refine ⟨_, into_hex_raw_ok p b (c :: s) (by rw [hcp]; exact henc), ?_⟩
          have hdl : (b.drop (q.1 + 1)).length = b.length - q.1 - 1 := by simp; omega
          cases hpf : p.withpfx <;>
            simp [hne, hlz, hfnb, hvlt, hslen, hdl] <;> omega
        · obtain ⟨s, henc, _, hslen⟩ := into_body_compact_high p.withcap b q.1 q.2 hf hvlt
            (fun x hx => hb x (List.mem_of_mem_drop hx))
          refine ⟨_, into_hex_raw_ok p b s (by rw [hcp]; exact henc), ?_⟩
          have hdl0 : (b.drop q.1).length = b.length - q.1 := by simp
          cases hpf : p.withpfx <;>
            simp [hne, hlz, hfnb, hvlt, hslen, hdl0] <;> omega
  · decide

theorem c6_witness :
    ∃ out, into_hex_raw ⟨false, true, false⟩ [0xab, 0xcd] = .ok out ∧
      out.length = (if (true : Bool) then 2 else 0) +
        (if (false : Bool) then
          (if leadingZeroBytes [0xab, 0xcd] = ([0xab, 0xcd] : List Nat).length then 1
           else 2 * (([0xab, 0xcd] : List Nat).length - leadingZeroBytes [0xab, 0xcd]) -
             (if firstNonzeroBelow16 [0xab, 0xcd] then 1 else 0))
         else 2 * ([0xab, 0xcd] : List Nat).length) :=
  c6_encode_length.1 ⟨false, true, false⟩ [0xab, 0xcd] (by decide)

/-! ### Case tolerance -/

/-- Two characters are the same hex digit up to letter case: either equal,
or an `A-F` letter paired with its `a-f` counterpart. -/
def sameHexCase (c d : Nat) : Prop :=
  c = d ∨ (0x41 ≤ c ∧ c ≤ 0x46 ∧ d = c + 32) ∨ (0x41 ≤ d ∧ d ≤ 0x46 ∧ c = d + 32)

instance (c d : Nat) : Decidable (sameHexCase c d) := by
  unfold sameHexCase
  infer_instance

/-- Fact: `intoval` is insensitive to hex-letter case. -/
theorem intoval_congr (c d : Nat) (h : sameHexCase c d) : intoval c = intoval d := by
  rcases h with rfl | ⟨h1, h2, rfl⟩ | ⟨h1, h2, rfl⟩
  · rfl
  · unfold intoval
    rw [if_pos ⟨h1, h2⟩,
      if_neg (by omega : ¬(0x41 ≤ c + 32 ∧ c + 32 ≤ 0x46)),
      if_pos (by omega : 0x61 ≤ c + 32 ∧ c + 32 ≤ 0x66)]
    have e : c - 0x41 + 10 = c + 32 - 0x61 + 10 := by omega
    rw [e]
  · unfold intoval
    rw [if_neg (by omega : ¬(0x41 ≤ d + 32 ∧ d + 32 ≤ 0x46)),
      if_pos (by omega : 0x61 ≤ d + 32 ∧ d + 32 ≤ 0x66),
      if_pos ⟨h1, h2⟩]
    have e : d + 32 - 0x61 + 10 = d - 0x41 + 10 := by omega
    rw [e]

/-- Fact: `intobyte` is insensitive to hex-letter case in its second argument. -/
theorem intobyte_congr (a : Nat) {c d : Nat} (h : sameHexCase c d) :
    intobyte a c = intobyte a d := by
  unfold intobyte
  simp only [intoval_congr c d h]

/-- A character unrelated to any hex letter is fixed by `sameHexCase`. -/
theorem shc_fixed {c d : Nat} (h : sameHexCase c d) (k : Nat)
    (hk1 : ¬(0x41 ≤ k ∧ k ≤ 0x46)) (hk2 : ¬(0x61 ≤ k ∧ k ≤ 0x66)) :
    c = k ↔ d = k := by
  rcases h with rfl | ⟨h1, h2, rfl⟩ | ⟨h1, h2, rfl⟩ <;> omega

/-- Heads of case-related lists are case-related (default 0 for empty). -/
theorem forall2_headD {l1 l2 : List Nat} (h : List.Forall₂ sameHexCase l1 l2) :
    sameHexCase (l1.headD 0) (l2.headD 0) := by
  cases h with
  | nil => exact .inl rfl
  | cons hab _ => exact hab

/-- Dropping one element preserves the case relation. -/
theorem forall2_drop1 {l1 l2 : List Nat} (h : List.Forall₂ sameHexCase l1 l2) :
    List.Forall₂ sameHexCase (l1.drop 1) (l2.drop 1) := by
  cases h with
  | nil => exact .nil
  | cons _ ht => simpa using ht

/-- Case-related lists agree on whether they start with `"0x"`. -/
theorem forall2_pfx_iff {r1 r2 : List Nat} (h : List.Forall₂ sameHexCase r1 r2) :
    r1.take 2 = [0x30, 0x78] ↔ r2.take 2 = [0x30, 0x78] := by
  cases h with
  | nil => simp
  | cons hab ht =>
    rename_i a b t1 t2
    cases ht with
    | nil => simp
    | cons hcd ht2 =>
      rename_i c d t1' t2'
      simp only [List.take_succ_cons, List.take_zero, List.cons.injEq, and_true]
      rw [shc_fixed hab 0x30 (by omega) (by omega),
        shc_fixed hcd 0x78 (by omega) (by omega)]

/-- Prefix stripping preserves the case relation. -/
theorem forall2_stripPfx (wp : Bool) {r1 r2 : List Nat}
    (h : List.Forall₂ sameHexCase r1 r2) :
    List.Forall₂ sameHexCase (stripPfx wp r1) (stripPfx wp r2) := by
  cases wp with
  | false => exact h
  | true =>
    unfold stripPfx
    rw [if_pos rfl, if_pos rfl]
    by_cases hp : r1.take 2 = [0x30, 0x78]
    · rw [if_pos hp, if_pos ((forall2_pfx_iff h).mp hp)]
      have h2d := forall2_drop1 (forall2_drop1 h)
      simpa [List.drop_drop] using h2d
    · rw [if_neg hp, if_neg (fun hc => hp ((forall2_pfx_iff h).mpr hc))]
      exact h

/-- The pairwise decoding loop is insensitive to hex-letter case. -/
theorem pairsDecode_congr : ∀ (n : Nat) (s1 s2 : List Nat), s1.length ≤ n →
    List.Forall₂ sameHexCase s1 s2 → pairsDecode s1 = pairsDecode s2 := by
  intro n
  induction n with
  | zero =>
    intro s1 s2 hlen h
    cases h with
    | nil => rfl
    | cons _ _ => simp at hlen
  | succ n ih =>
    intro s1 s2 hlen h
    cases h with
    | nil => rfl
    | cons hab ht =>
      rename_i a b t1 t2
      cases ht with
      | nil => rfl
      | cons hcd ht2 =>
        rename_i c d t1' t2'
        have e1 := intoval_congr _ _ hab
        have ih2 := ih t1' t2' (by simp at hlen ⊢; omega) ht2
        simp only [pairsDecode]
        unfold intobyte
        rw [e1]
        simp only [intoval_congr _ _ hcd, ih2]

/-- The whole decoder is insensitive to hex-letter case of its input. -/
theorem from_body_congr (N : Nat) (cpt : Bool) {h1 h2 : List Nat}
    (h : List.Forall₂ sameHexCase h1 h2) :
    from_hex_body N cpt h1 = from_hex_body N cpt h2 := by
  have hlen : h1.length = h2.length := h.length_eq
  cases cpt with
  | false =>
    rw [from_body_strict, from_body_strict]
    unfold fromhex
    rw [hlen, pairsDecode_congr h1.length h1 h2 le_rfl h]
  | true =>
    by_cases hbad : h1.length = 0 ∨ h1.length > N * 2
    · unfold from_hex_body
      rw [if_pos rfl, if_pos rfl, if_pos hbad, if_pos (by omega), hlen]
    · by_cases hpar : h1.length % 2 = 1
      · rw [from_body_odd N h1 hpar (by omega), from_body_odd N h2 (by omega) (by omega)]
        rw [intobyte_congr 0x30 (forall2_headD h)]
        simp only
          [pairsDecode_congr (h1.drop 1).length (h1.drop 1) (h2.drop 1) le_rfl (forall2_drop1 h),
          hlen]
      · rw [from_body_even N h1 (by omega) (by omega) (by omega),
          from_body_even N h2 (by omega) (by omega) (by omega)]
        rw [pairsDecode_congr h1.length h1 h2 le_rfl h]
        simp only [hlen]

/-- C7: Case tolerance — decoding two inputs that differ only in the
letter case of hex digits gives identical results, and the decode result
never depends on the policy's `withcap` flag. -/
theorem c7_case_tolerance :
    (∀ (N : Nat) (p : HexConf) (raw1 raw2 : List Nat),
      List.Forall₂ sameHexCase raw1 raw2 →
      from_hex_raw N p raw1 = from_hex_raw N p raw2) ∧
    (∀ (N : Nat) (cpt pf u1 u2 : Bool) (raw : List Nat),
      from_hex_raw N ⟨cpt, pf, u1⟩ raw = from_hex_raw N ⟨cpt, pf, u2⟩ raw) := by
  constructor
  · intro N p r1 r2 h
    unfold from_hex_raw
    exact from_body_congr N p.compact (forall2_stripPfx p.withpfx h)
  · intro N cpt pf u1 u2 raw
    rfl

theorem c7_witness :
    from_hex_raw 3 ⟨false, false, true⟩ [0x41, 0x41, 0x42, 0x42, 0x43, 0x43] =
      from_hex_raw 3 ⟨false, false, true⟩ [0x61, 0x61, 0x62, 0x62, 0x63, 0x63] ∧
    from_hex_raw 3 ⟨false, false, true⟩ [0x61, 0x61, 0x62, 0x62, 0x63, 0x63] =
      from_hex_raw 3 ⟨false, false, false⟩ [0x61, 0x61, 0x62, 0x62, 0x63, 0x63] :=
  ⟨c7_case_tolerance.1 3 ⟨false, false, true⟩ _ _
      (.cons (by decide) (.cons (by decide) (.cons (by decide)
        (.cons (by decide) (.cons (by decide) (.cons (by decide) .nil)))))),
   c7_case_tolerance.2 3 false false true false _⟩
